import Mathlib

/-!
Verification of the `SIMDBinaryPacking` codec (src/headers/simdbinarypacking.h).

The codec's stream and both buffers are sequences of 32-bit words, modelled as
`List Nat` with values below `2 ^ 32`.  Pointer alignment matters to the codec
(`needPaddingTo128Bits` inspects the address of the cursor), so word addresses
are modelled as `Nat` offsets measured in words from a 16-byte-aligned origin:
an address is 16-byte aligned iff it is divisible by 4.  Fallible operations
return `Except CodecError`; on an error nothing has been written (the `ok`
payload carries all output).

Definitions are transcribed from src/headers/simdbinarypacking.h.  Helper
routines that the header calls but that live elsewhere in the repository
(util.h, simdbitpacking.h — not under src/) are modelled from the spec and say
so in their doc comments.
-/

namespace FastPForLib

/-- Error kinds of §7 of the spec.  In the source these surface as the thrown
exceptions of `encodeArray`/`decodeArray`. -/
inductive CodecError where
  | InvalidLength
  | BadOutputAlignment
  | StreamCorrupt
  deriving DecidableEq

/-- Sentinel padding word `SIMDBinaryPacking::CookiePadder` (simdbinarypacking.h:32). -/
def CookiePadder : Nat := 123456

/-- Modelled from the spec: `needPaddingTo128Bits` (util.h, not under src/) — §4.1:
"returns true iff `cursor` is not a multiple of four words (16 bytes)".  `addr` is a
word address. -/
def needPaddingTo128Bits (addr : Nat) : Bool := addr % 4 != 0

/-- Modelled from the spec: `checkifdivisibleby(length, BlockSize)` (util.h, not under
src/) — §4.3: "if `L` is not a positive multiple of 128, the encoder fails with
`InvalidLength`".  Returns `true` when the length is acceptable. -/
def checkifdivisibleby (a x : Nat) : Bool := a != 0 && a % x == 0

/-- Width of a value in bits, with fuel bounding the word size: `0` for `0`, else
`⌊log2 n⌋ + 1`.  Structural recursion so that it evaluates by `rfl`/`decide`. -/
def bitWidthAux : Nat → Nat → Nat
  | 0, _ => 0
  | fuel + 1, n => if n = 0 then 0 else bitWidthAux fuel (n / 2) + 1

/-- Modelled from the spec: `maxbits` (util.h, not under src/) — §4.3: "`maxbits` is `0`
if all values are zero, else `⌊log2(max)⌋+1`".  Values are 32-bit words, hence the
32 bits of fuel. -/
def maxbits (m : List Nat) : Nat := bitWidthAux 32 (m.foldr max 0)

/-- Value of a list of base-`2 ^ bits` digits, first digit least significant. -/
def digitsVal (bits : Nat) (m : List Nat) : Nat :=
  m.foldr (fun v acc => v + 2 ^ bits * acc) 0

/-- Split a number into `k` 32-bit words, least significant first. -/
def toLimbs : Nat → Nat → List Nat
  | 0, _ => []
  | k + 1, N => N % 2 ^ 32 :: toLimbs k (N / 2 ^ 32)

/-- Value of a list of 32-bit words, first word least significant. -/
def limbsVal (ws : List Nat) : Nat := ws.foldr (fun w acc => w + 2 ^ 32 * acc) 0

/-- Extract `k` base-`2 ^ bits` digits of a number, least significant first. -/
def toDigits : Nat → Nat → Nat → List Nat
  | 0, _, _ => []
  | k + 1, bits, N => N % 2 ^ bits :: toDigits k bits (N / 2 ^ bits)

/-- Modelled from the spec: the external pack kernel `SIMD_fastpackwithoutmask_32`
(simdbitpacking.h, not under src/) — §6: reads 128 words, each below `2 ^ bits`, and
writes exactly `4·bits` output words holding the 128 values at `bits` bits each. -/
def SIMD_fastpackwithoutmask_32 (m : List Nat) (bits : Nat) : List Nat :=
  toLimbs (4 * bits) (digitsVal bits m)

/-- Modelled from the spec: the external unpack kernel `SIMD_fastunpack_32`
(simdbitpacking.h, not under src/) — §6: reads `4·bits` words and writes exactly 128
words, zero-extended; §4.4/§7: "a width outside `[0,32]` transitions to the terminal
`Error` state", surfaced as `StreamCorrupt`. -/
def SIMD_fastunpack_32 (ws : List Nat) (bits : Nat) : Except CodecError (List Nat) :=
  if bits ≤ 32 then .ok (toDigits 128 bits (limbsVal ws)) else .error .StreamCorrupt

/-- Slice a word sequence into consecutive miniblocks of `MiniBlockSize = 128` words
(the encoder's `in + i * MiniBlockSize` walk over a block). -/
def chunks128 (x : List Nat) : List (List Nat) :=
  if h : x.length = 0 then [] else x.take 128 :: chunks128 (x.drop 128)
termination_by x.length
decreasing_by simp only [List.length_drop]; omega

/-- Slice a miniblock sequence into blocks of `HowManyMiniBlocks = 16` miniblocks. -/
def chunks16 (l : List (List Nat)) : List (List (List Nat)) :=
  if h : l.length = 0 then [] else l.take 16 :: chunks16 (l.drop 16)
termination_by l.length
decreasing_by simp only [List.length_drop]; omega

/-- One header word as written by the encoder (simdbinarypacking.h:69-76 and 98-105):
`(Bs[k] << 24) | (Bs[k+1] << 16) | (Bs[k+2] << 8) | Bs[k+3]` on 32-bit words. -/
def headerWord (a b c d : Nat) : Nat :=
  ((a <<< 24) % 2 ^ 32) ||| ((b <<< 16) % 2 ^ 32) ||| ((c <<< 8) % 2 ^ 32) ||| (d % 2 ^ 32)

/-- The four header words the encoder emits for one block from the sixteen-entry width
array `Bs` (simdbinarypacking.h:69-76 and 98-105). -/
def writeHeader (Bs : List Nat) : List Nat :=
  [headerWord (Bs.getD 0 0) (Bs.getD 1 0) (Bs.getD 2 0) (Bs.getD 3 0),
   headerWord (Bs.getD 4 0) (Bs.getD 5 0) (Bs.getD 6 0) (Bs.getD 7 0),
   headerWord (Bs.getD 8 0) (Bs.getD 9 0) (Bs.getD 10 0) (Bs.getD 11 0),
   headerWord (Bs.getD 12 0) (Bs.getD 13 0) (Bs.getD 14 0) (Bs.getD 15 0)]

/-- The decoder's width extraction from one header word (simdbinarypacking.h:130-135
and 144-148): `static_cast<uint8_t>(w >> s)` for shifts 24, 16, 8, 0 in that order. -/
def readHeaderWord (w : Nat) : List Nat :=
  [(w >>> 24) % 2 ^ 8, (w >>> 16) % 2 ^ 8, (w >>> 8) % 2 ^ 8, w % 2 ^ 8]

/-- Read the stream word at word index `p` (`in[p]`). -/
def readWord (s : List Nat) (p : Nat) : Nat := s.getD p 0

/-- The decoder's sixteen widths `Bs[0..15]` from the four header words at stream
index `p` (simdbinarypacking.h:130-135 and 144-148). -/
def readHeader4 (s : List Nat) (p : Nat) : List Nat :=
  readHeaderWord (readWord s p) ++ readHeaderWord (readWord s (p + 1)) ++
    readHeaderWord (readWord s (p + 2)) ++ readHeaderWord (readWord s (p + 3))

/-- The encoder's padding loop (simdbinarypacking.h:47):
`while (needPaddingTo128Bits(out)) *out++ = CookiePadder;` starting at word
address `addr`. -/
def padWords (addr : Nat) : List Nat :=
  if h : needPaddingTo128Bits addr then CookiePadder :: padWords (addr + 1) else []
termination_by (4 - addr % 4) % 4
decreasing_by simp only [needPaddingTo128Bits, ne_eq, bne_iff_ne] at h; omega

/-- One block frame: four header words, then each miniblock packed at its own width
(simdbinarypacking.h:66-110).  `mbs` holds the block's miniblocks — 16 for a full
block, 1..15 for the trailing one, whose missing widths are the `memset` zeros. -/
def encodeBlock (mbs : List (List Nat)) : List Nat :=
  writeHeader (mbs.map maxbits ++ List.replicate (16 - mbs.length) 0) ++
    (mbs.map (fun m => SIMD_fastpackwithoutmask_32 m (maxbits m))).flatten

/-- The encoder's block loop (simdbinarypacking.h:62-113): full blocks of
`16 * 128 = 2048` words while they last, then one trailing block of
`(final - in) / MiniBlockSize` miniblocks. -/
def encodeBlocks (x : List Nat) : List Nat :=
  if h : 2048 ≤ x.length then
    encodeBlock (chunks128 (x.take 2048)) ++ encodeBlocks (x.drop 2048)
  else if x.length = 0 then [] else encodeBlock (chunks128 x)
termination_by x.length
decreasing_by simp only [List.length_drop]; omega

/-- The word stream `encodeArray` writes from word address `outAddr`: the length
prefix `static_cast<uint32_t>(length)` (simdbinarypacking.h:46), the padding words
(line 47), then the block frames. -/
def encodeStream (x : List Nat) (outAddr : Nat) : List Nat :=
  x.length % 2 ^ 32 :: (padWords (outAddr + 1) ++ encodeBlocks x)

/-- Encoder entry point `SIMDBinaryPacking::encodeArray` (simdbinarypacking.h:42-116).
Returns the written words and `nvalue = out - initout`; on `InvalidLength` the error
result carries no output words (nothing is written). -/
def encodeArray (x : List Nat) (outAddr : Nat) : Except CodecError (List Nat × Nat) :=
  if checkifdivisibleby x.length 128 then
    .ok (encodeStream x outAddr, (encodeStream x outAddr).length)
  else .error .InvalidLength

/-- The decoder's padding skip (simdbinarypacking.h:122-125): while the input address
is unaligned, require `in[0] = CookiePadder` and advance.  `addr` is the word address
of the cursor, `p` its index into the stream; returns the index past the padding. -/
def skipPadding (s : List Nat) (addr p : Nat) : Except CodecError Nat :=
  if h : needPaddingTo128Bits addr then
    if readWord s p = CookiePadder then skipPadding s (addr + 1) (p + 1)
    else .error .StreamCorrupt
  else .ok p
termination_by (4 - addr % 4) % 4
decreasing_by simp only [needPaddingTo128Bits, ne_eq, bne_iff_ne] at h; omega

/-- The decoder's inner miniblock loop (simdbinarypacking.h:136-140 and 150-153): for
each width `b`, unpack 128 words from the `4·b` payload words at the cursor and
advance the cursor by `4·b` (`in += MiniBlockSize/32 * Bs[i]`). -/
def unpackMiniblocks (s : List Nat) : Nat → List Nat → Except CodecError (List Nat × Nat)
  | p, [] => .ok ([], p)
  | p, b :: Bs =>
    match SIMD_fastunpack_32 ((s.drop p).take (4 * b)) b with
    | .error e => .error e
    | .ok m =>
      match unpackMiniblocks s (p + 4 * b) Bs with
      | .error e => .error e
      | .ok (ms, p') => .ok (m ++ ms, p')

/-- The decoder's full-block loop (simdbinarypacking.h:128-141), running `n` times:
read the four header words at the cursor, then unpack the sixteen miniblocks. -/
def decodeFull (s : List Nat) : Nat → Nat → Except CodecError (List Nat × Nat)
  | p, 0 => .ok ([], p)
  | p, n + 1 =>
    match unpackMiniblocks s (p + 4) (readHeader4 s p) with
    | .error e => .error e
    | .ok (blockOut, p') =>
      match decodeFull s p' n with
      | .error e => .error e
      | .ok (restOut, p'') => .ok (blockOut ++ restOut, p'')

/-- Decoder entry point `SIMDBinaryPacking::decodeArray` (simdbinarypacking.h:118-159).
`inAddr` and `outAddr` are the word addresses of the two buffers; the stream `s` is
read from index 0.  Returns, as in the source, the decoded words, `nvalue = out -
initout`, and the final input cursor (the returned `in` pointer) as an index into
`s`. -/
def decodeArray (s : List Nat) (inAddr outAddr : Nat) :
    Except CodecError (List Nat × Nat × Nat) :=
  let actuallength := readWord s 0
  if needPaddingTo128Bits outAddr then .error .BadOutputAlignment
  else
    match skipPadding s (inAddr + 1) 1 with
    | .error e => .error e
    | .ok p1 =>
      match decodeFull s p1 (actuallength / 2048) with
      | .error e => .error e
      | .ok (outFull, p2) =>
        let written := actuallength / 2048 * 2048
        if written < actuallength then
          let howmany := (actuallength - written) / 128
          match unpackMiniblocks s (p2 + 4) ((readHeader4 s p2).take howmany) with
          | .error e => .error e
          | .ok (outTrail, p3) => .ok (outFull ++ outTrail, written + howmany * 128, p3)
        else .ok (outFull, written, p2)

/-- Stream offsets of the miniblock payload regions of one block, given the offset `q`
of the block's first payload word: the cursor advances by `4·B` words per miniblock
(`out += MiniBlockSize/32 * Bs[i]`, simdbinarypacking.h:80 and 109). -/
def mbOffsets (q : Nat) : List (List Nat) → List Nat
  | [] => []
  | m :: mbs => q :: mbOffsets (q + 4 * maxbits m) mbs

/-- Stream offsets of every miniblock payload region of `encodeBlocks x`, given the
offset `p` of the first block frame: each block's payload begins four header words
past its frame start. -/
def blocksOffsets (p : Nat) (x : List Nat) : List Nat :=
  if h : 2048 ≤ x.length then
    mbOffsets (p + 4) (chunks128 (x.take 2048)) ++
      blocksOffsets (p + (encodeBlock (chunks128 (x.take 2048))).length) (x.drop 2048)
  else if x.length = 0 then [] else mbOffsets (p + 4) (chunks128 x)
termination_by x.length
decreasing_by simp only [List.length_drop]; omega

/-- Stream offsets (from the stream base) of every payload region of the stream that
`encodeArray` writes from word address `outAddr`. -/
def payloadOffsets (x : List Nat) (outAddr : Nat) : List Nat :=
  blocksOffsets (1 + (padWords (outAddr + 1)).length) x

/-! ### Arithmetic of the pack/unpack kernels -/

theorem limbsVal_nil : limbsVal [] = 0 := rfl

theorem limbsVal_cons (w : Nat) (ws : List Nat) :
    limbsVal (w :: ws) = w + 2 ^ 32 * limbsVal ws := rfl

theorem digitsVal_nil (bits : Nat) : digitsVal bits [] = 0 := rfl

theorem digitsVal_cons (bits v : Nat) (m : List Nat) :
    digitsVal bits (v :: m) = v + 2 ^ bits * digitsVal bits m := rfl

theorem toLimbs_length (k N : Nat) : (toLimbs k N).length = k := by
  induction k generalizing N with
  | zero => rfl
  | succ k ih => simp [toLimbs, ih]

theorem toDigits_length (k bits N : Nat) : (toDigits k bits N).length = k := by
  induction k generalizing N with
  | zero => rfl
  | succ k ih => simp [toDigits, ih]

theorem limbsVal_toLimbs (k N : Nat) : limbsVal (toLimbs k N) = N % 2 ^ (32 * k) := by
  induction k generalizing N with
  | zero => simp [toLimbs, limbsVal]; omega
  | succ k ih =>
    rw [toLimbs, limbsVal_cons, ih, show 32 * (k + 1) = 32 + 32 * k by ring, pow_add,
      Nat.mod_mul]

theorem digitsVal_lt (bits : Nat) (m : List Nat) (h : ∀ v ∈ m, v < 2 ^ bits) :
    digitsVal bits m < 2 ^ (bits * m.length) := by
  induction m with
  | nil => simp [digitsVal_nil]
  | cons v t ih =>
    have hv : v < 2 ^ bits := h v (by simp)
    have ht : digitsVal bits t < 2 ^ (bits * t.length) := ih fun w hw => h w (by simp [hw])
    rw [digitsVal_cons, List.length_cons, show bits * (t.length + 1) = bits + bits * t.length
      by ring, pow_add]
    calc v + 2 ^ bits * digitsVal bits t + 1
        ≤ 2 ^ bits + 2 ^ bits * digitsVal bits t := by omega
      _ = 2 ^ bits * (digitsVal bits t + 1) := by ring
      _ ≤ 2 ^ bits * 2 ^ (bits * t.length) := Nat.mul_le_mul_left _ (by omega)

theorem toDigits_digitsVal (bits : Nat) (m : List Nat) (h : ∀ v ∈ m, v < 2 ^ bits) :
    toDigits m.length bits (digitsVal bits m) = m := by
  induction m with
  | nil => rfl
  | cons v t ih =>
    have hv : v < 2 ^ bits := h v (by simp)
    have hmod : (v + 2 ^ bits * digitsVal bits t) % 2 ^ bits = v := by
      rw [Nat.add_mul_mod_self_left, Nat.mod_eq_of_lt hv]
    have hdiv : (v + 2 ^ bits * digitsVal bits t) / 2 ^ bits = digitsVal bits t := by
      rw [Nat.add_mul_div_left _ _ (Nat.pos_pow_of_pos bits (by omega)),
        Nat.div_eq_of_lt hv, Nat.zero_add]
    rw [List.length_cons, digitsVal_cons, toDigits, hmod, hdiv,
      ih fun w hw => h w (by simp [hw])]

/-! ### Widths -/

theorem bitWidthAux_le (f n : Nat) : bitWidthAux f n ≤ f := by
  induction f generalizing n with
  | zero => exact Nat.le_refl 0
  | succ f ih =>
    rw [bitWidthAux]
    split
    · omega
    · exact Nat.succ_le_succ (ih _)

theorem bitWidthAux_zero (f : Nat) : bitWidthAux f 0 = 0 := by
  cases f <;> simp [bitWidthAux]

theorem lt_two_pow_bitWidthAux (f n : Nat) (h : n < 2 ^ f) :
    n < 2 ^ bitWidthAux f n := by
  induction f generalizing n with
  | zero => simpa [bitWidthAux] using h
  | succ f ih =>
    rw [bitWidthAux]
    split
    · omega
    · have h2 : (2 : Nat) ^ (f + 1) = 2 * 2 ^ f := by rw [pow_succ]; ring
      have hdiv : n / 2 < 2 ^ f := by omega
      have := ih (n / 2) hdiv
      have h2' : (2 : Nat) ^ (bitWidthAux f (n / 2) + 1) = 2 * 2 ^ bitWidthAux f (n / 2) := by
        rw [pow_succ]; ring
      omega

theorem bitWidthAux_eq_log (f n : Nat) (h : n < 2 ^ f) (hn : n ≠ 0) :
    bitWidthAux f n = Nat.log 2 n + 1 := by
  induction f generalizing n with
  | zero => omega
  | succ f ih =>
    rw [bitWidthAux, if_neg hn]
    by_cases h1 : n / 2 = 0
    · have : n = 1 := by omega
      subst this
      simp [bitWidthAux_zero, Nat.log_one_right]
    · have h2 : (2 : Nat) ^ (f + 1) = 2 * 2 ^ f := by rw [pow_succ]; ring
      have hdiv : n / 2 < 2 ^ f := by omega
      rw [ih (n / 2) hdiv h1, Nat.log_div_base]
      have hpos : 0 < Nat.log 2 n := Nat.log_pos (by omega) (by omega)
      omega

theorem le_foldr_max (m : List Nat) : ∀ v ∈ m, v ≤ m.foldr max 0 := by
  induction m with
  | nil => simp
  | cons a t ih =>
    intro v hv
    rcases List.mem_cons.mp hv with rfl | hv
    · exact le_max_left _ _
    · exact le_trans (ih v hv) (le_max_right _ _)

theorem foldr_max_lt (m : List Nat) (c : Nat) (hc : 0 < c) (h : ∀ v ∈ m, v < c) :
    m.foldr max 0 < c := by
  induction m with
  | nil => simpa
  | cons a t ih =>
    simp only [List.foldr_cons]
    exact max_lt (h a (by simp)) (ih fun v hv => h v (by simp [hv]))

theorem maxbits_le_32 (m : List Nat) : maxbits m ≤ 32 := bitWidthAux_le 32 _

theorem lt_two_pow_maxbits (m : List Nat) (h : ∀ v ∈ m, v < 2 ^ 32) :
    ∀ v ∈ m, v < 2 ^ maxbits m := by
  intro v hv
  have hM : m.foldr max 0 < 2 ^ 32 := foldr_max_lt m _ (by positivity) h
  exact lt_of_le_of_lt (le_foldr_max m v hv) (lt_two_pow_bitWidthAux 32 _ hM)

theorem maxbits_eq_clog (m : List Nat) (h : ∀ v ∈ m, v < 2 ^ 32) :
    maxbits m = Nat.clog 2 (m.foldr max 0 + 1) := by
  rw [maxbits]
  by_cases h0 : m.foldr max 0 = 0
  · rw [h0, bitWidthAux_zero, Nat.clog_one_right]
  · have hM : m.foldr max 0 < 2 ^ 32 := foldr_max_lt m _ (by positivity) h
    rw [bitWidthAux_eq_log 32 _ hM h0]
    set M := m.foldr max 0 with hMdef
    have hle : Nat.clog 2 (M + 1) ≤ Nat.log 2 M + 1 := by
      rw [← Nat.le_pow_iff_clog_le (by omega)]
      exact Nat.lt_pow_succ_log_self (by omega) M
    have hge : Nat.log 2 M + 1 ≤ Nat.clog 2 (M + 1) := by
      by_contra hcon
      have hc : Nat.clog 2 (M + 1) ≤ Nat.log 2 M := by omega
      have := (Nat.le_pow_iff_clog_le (show (1 : Nat) < 2 by omega)).mpr hc
      have := Nat.pow_log_le_self 2 h0
      omega
    omega

/-- Kernel round trip per §6: for widths up to 32 and values fitting the width,
unpack inverts pack. -/
theorem unpack_pack (m : List Nat) (bits : Nat) (hb : bits ≤ 32) (hlen : m.length = 128)
    (h : ∀ v ∈ m, v < 2 ^ bits) :
    SIMD_fastunpack_32 (SIMD_fastpackwithoutmask_32 m bits) bits = .ok m := by
  rw [SIMD_fastunpack_32, if_pos hb, SIMD_fastpackwithoutmask_32, limbsVal_toLimbs]
  have hlt : digitsVal bits m < 2 ^ (32 * (4 * bits)) := by
    have := digitsVal_lt bits m h
    rw [hlen] at this
    have heq : bits * 128 = 32 * (4 * bits) := by ring
    rwa [heq] at this
  rw [Nat.mod_eq_of_lt hlt]
  have := toDigits_digitsVal bits m h
  rw [hlen] at this
  rw [this]

/-! ### Header words -/

theorem lor_mul_pow (x y n : Nat) (hy : y < 2 ^ n) : x * 2 ^ n ||| y = x * 2 ^ n + y := by
  induction n generalizing x y with
  | zero =>
    have : y = 0 := by omega
    subst this
    simp
  | succ n ih =>
    have hbit : Nat.bit (decide (y % 2 = 1)) (y >>> 1) = y :=
      Nat.bit_decide_mod_two_eq_one_shiftRight_one y
    have hx : x * 2 ^ (n + 1) = Nat.bit false (x * 2 ^ n) := by
      simp only [Nat.bit, Bool.cond_false]
      rw [pow_succ]; ring
    have h2 : (2 : Nat) ^ (n + 1) = 2 * 2 ^ n := by rw [pow_succ]; ring
    have hy2 : y >>> 1 < 2 ^ n := by
      rw [Nat.shiftRight_one]
      omega
    calc x * 2 ^ (n + 1) ||| y
        = Nat.bit false (x * 2 ^ n) ||| Nat.bit (decide (y % 2 = 1)) (y >>> 1) := by
          rw [hx, hbit]
      _ = Nat.bit (false || decide (y % 2 = 1)) (x * 2 ^ n ||| y >>> 1) := by
          rw [Nat.lor_bit]
      _ = Nat.bit (decide (y % 2 = 1)) (x * 2 ^ n + y >>> 1) := by
          rw [Bool.false_or, ih _ _ hy2]
      _ = x * 2 ^ (n + 1) + y := by
          rw [Nat.bit_val, Nat.shiftRight_one]
          have h3 : x * 2 ^ (n + 1) = 2 * (x * 2 ^ n) := by rw [pow_succ]; ring
          rcases Nat.mod_two_eq_zero_or_one y with hpar | hpar
          · have hb' : (decide (y % 2 = 1)) = false := by simp [hpar]
            rw [hb', Bool.toNat_false]
            omega
          · have hb' : (decide (y % 2 = 1)) = true := by simp [hpar]
            rw [hb', Bool.toNat_true]
            omega

theorem headerWord_eq (a b c d : Nat) (ha : a < 256) (hb : b < 256) (hc : c < 256)
    (hd : d < 256) : headerWord a b c d = a * 2 ^ 24 + b * 2 ^ 16 + c * 2 ^ 8 + d := by
  rw [headerWord, Nat.shiftLeft_eq, Nat.shiftLeft_eq, Nat.shiftLeft_eq]
  have e8 : (2 : Nat) ^ 8 = 256 := by norm_num
  have e16 : (2 : Nat) ^ 16 = 65536 := by norm_num
  have e24 : (2 : Nat) ^ 24 = 16777216 := by norm_num
  have e32 : (2 : Nat) ^ 32 = 4294967296 := by norm_num
  rw [Nat.mod_eq_of_lt (by omega), Nat.mod_eq_of_lt (by omega), Nat.mod_eq_of_lt (by omega),
    Nat.mod_eq_of_lt (by omega), Nat.lor_assoc, Nat.lor_assoc,
    lor_mul_pow c d 8 (by omega),
    lor_mul_pow b (c * 2 ^ 8 + d) 16 (by omega),
    lor_mul_pow a (b * 2 ^ 16 + (c * 2 ^ 8 + d)) 24 (by omega)]
  ring

theorem readHeaderWord_headerWord (a b c d : Nat) (ha : a < 256) (hb : b < 256)
    (hc : c < 256) (hd : d < 256) : readHeaderWord (headerWord a b c d) = [a, b, c, d] := by
  rw [headerWord_eq a b c d ha hb hc hd, readHeaderWord, Nat.shiftRight_eq_div_pow,
    Nat.shiftRight_eq_div_pow, Nat.shiftRight_eq_div_pow]
  have e8 : (2 : Nat) ^ 8 = 256 := by norm_num
  have e16 : (2 : Nat) ^ 16 = 65536 := by norm_num
  have e24 : (2 : Nat) ^ 24 = 16777216 := by norm_num
  rw [e8, e16, e24]
  have g1 : (a * 16777216 + b * 65536 + c * 256 + d) / 16777216 % 256 = a := by omega
  have g2 : (a * 16777216 + b * 65536 + c * 256 + d) / 65536 % 256 = b := by omega
  have g3 : (a * 16777216 + b * 65536 + c * 256 + d) / 256 % 256 = c := by omega
  have g4 : (a * 16777216 + b * 65536 + c * 256 + d) % 256 = d := by omega
  rw [g1, g2, g3, g4]

/-! ### Stream indexing -/

theorem getD_append_len {α : Type} (pre l : List α) (k : Nat) (d : α) :
    (pre ++ l).getD (pre.length + k) d = l.getD k d := by
  induction pre with
  | nil => simp
  | cons a t ih =>
    simp only [List.cons_append, List.length_cons]
    rw [show t.length + 1 + k = (t.length + k) + 1 by omega, List.getD_cons_succ]
    exact ih

theorem readWord_append (pre l : List Nat) (k : Nat) :
    readWord (pre ++ l) (pre.length + k) = readWord l k := getD_append_len pre l k 0

theorem getD_mem_or {α : Type} (l : List α) (i : Nat) (d : α) :
    l.getD i d ∈ l ∨ l.getD i d = d := by
  induction l generalizing i with
  | nil => right; simp
  | cons a t ih =>
    cases i with
    | zero => left; simp
    | succ n =>
      rw [List.getD_cons_succ]
      rcases ih n with h | h
      · left; exact List.mem_cons_of_mem a h
      · right; exact h

theorem getD_append_lt {α : Type} (l l' : List α) (i : Nat) (d : α) (hi : i < l.length) :
    (l ++ l').getD i d = l.getD i d := by
  induction l generalizing i with
  | nil => simp at hi
  | cons a t ih =>
    cases i with
    | zero => simp
    | succ n =>
      simp only [List.cons_append, List.getD_cons_succ]
      exact ih n (by simpa using hi)

theorem getD_map_maxbits (mbs : List (List Nat)) (i : Nat) (hi : i < mbs.length) :
    (mbs.map maxbits).getD i 0 = maxbits (mbs.getD i []) := by
  induction mbs generalizing i with
  | nil => simp at hi
  | cons m t ih =>
    cases i with
    | zero => simp
    | succ n =>
      simp only [List.map_cons, List.getD_cons_succ]
      exact ih n (by simpa using hi)

theorem writeHeader_length (Bs : List Nat) : (writeHeader Bs).length = 4 := rfl

theorem eq_sixteen_getD (Bs : List Nat) (h : Bs.length = 16) :
    Bs = [Bs.getD 0 0, Bs.getD 1 0, Bs.getD 2 0, Bs.getD 3 0, Bs.getD 4 0, Bs.getD 5 0,
      Bs.getD 6 0, Bs.getD 7 0, Bs.getD 8 0, Bs.getD 9 0, Bs.getD 10 0, Bs.getD 11 0,
      Bs.getD 12 0, Bs.getD 13 0, Bs.getD 14 0, Bs.getD 15 0] := by
  match Bs, h with
  | [b0, b1, b2, b3, b4, b5, b6, b7, b8, b9, b10, b11, b12, b13, b14, b15], _ => rfl

/-- Header inversion in context: the decoder's sixteen widths read at the position of
a block's four header words recover the encoder's width array. -/
theorem readHeader4_writeHeader (pre Bs rest : List Nat) (h16 : Bs.length = 16)
    (hb : ∀ b ∈ Bs, b < 256) :
    readHeader4 (pre ++ (writeHeader Bs ++ rest)) pre.length = Bs := by
  have hg : ∀ i, Bs.getD i 0 < 256 := by
    intro i
    rcases getD_mem_or Bs i 0 with h | h
    · exact hb _ h
    · omega
  have e0 : readWord (pre ++ (writeHeader Bs ++ rest)) pre.length
      = headerWord (Bs.getD 0 0) (Bs.getD 1 0) (Bs.getD 2 0) (Bs.getD 3 0) := by
    have h := readWord_append pre (writeHeader Bs ++ rest) 0
    rw [Nat.add_zero] at h
    rw [h]; rfl
  have e1 : readWord (pre ++ (writeHeader Bs ++ rest)) (pre.length + 1)
      = headerWord (Bs.getD 4 0) (Bs.getD 5 0) (Bs.getD 6 0) (Bs.getD 7 0) := by
    rw [readWord_append pre (writeHeader Bs ++ rest) 1]; rfl
  have e2 : readWord (pre ++ (writeHeader Bs ++ rest)) (pre.length + 2)
      = headerWord (Bs.getD 8 0) (Bs.getD 9 0) (Bs.getD 10 0) (Bs.getD 11 0) := by
    rw [readWord_append pre (writeHeader Bs ++ rest) 2]; rfl
  have e3 : readWord (pre ++ (writeHeader Bs ++ rest)) (pre.length + 3)
      = headerWord (Bs.getD 12 0) (Bs.getD 13 0) (Bs.getD 14 0) (Bs.getD 15 0) := by
    rw [readWord_append pre (writeHeader Bs ++ rest) 3]; rfl
  rw [readHeader4, e0, e1, e2, e3,
    readHeaderWord_headerWord _ _ _ _ (hg 0) (hg 1) (hg 2) (hg 3),
    readHeaderWord_headerWord _ _ _ _ (hg 4) (hg 5) (hg 6) (hg 7),
    readHeaderWord_headerWord _ _ _ _ (hg 8) (hg 9) (hg 10) (hg 11),
    readHeaderWord_headerWord _ _ _ _ (hg 12) (hg 13) (hg 14) (hg 15)]
  exact (eq_sixteen_getD Bs h16).symm

/-! ### Padding -/

theorem padWords_eq_replicate (addr : Nat) :
    padWords addr = List.replicate ((4 - addr % 4) % 4) CookiePadder := by
  by_cases h0 : addr % 4 = 0
  · rw [padWords, dif_neg (by simp [needPaddingTo128Bits]; omega), h0]
    rfl
  · by_cases h1 : addr % 4 = 1
    · rw [padWords, dif_pos (by simp [needPaddingTo128Bits]; omega),
        padWords, dif_pos (by simp [needPaddingTo128Bits]; omega),
        padWords, dif_pos (by simp [needPaddingTo128Bits]; omega),
        padWords, dif_neg (by simp [needPaddingTo128Bits]; omega), h1]
      rfl
    · by_cases h2 : addr % 4 = 2
      · rw [padWords, dif_pos (by simp [needPaddingTo128Bits]; omega),
          padWords, dif_pos (by simp [needPaddingTo128Bits]; omega),
          padWords, dif_neg (by simp [needPaddingTo128Bits]; omega), h2]
        rfl
      · have h3 : addr % 4 = 3 := by omega
        rw [padWords, dif_pos (by simp [needPaddingTo128Bits]; omega),
          padWords, dif_neg (by simp [needPaddingTo128Bits]; omega), h3]
        rfl

theorem padWords_length_le (addr : Nat) : (padWords addr).length ≤ 3 := by
  rw [padWords_eq_replicate, List.length_replicate]
  omega

theorem padWords_aligned (a : Nat) (ha : a % 4 = 0) :
    padWords (a + 1) = [CookiePadder, CookiePadder, CookiePadder] := by
  rw [padWords_eq_replicate, show (a + 1) % 4 = 1 by omega]
  rfl

theorem skipPadding_cookie (L : Nat) (E : List Nat) (b : Nat) (hb : b % 4 = 0) :
    skipPadding (L :: CookiePadder :: CookiePadder :: CookiePadder :: E) (b + 1) 1
      = .ok 4 := by
  rw [skipPadding, dif_pos (by simp [needPaddingTo128Bits]; omega),
    show readWord (L :: CookiePadder :: CookiePadder :: CookiePadder :: E) 1
      = CookiePadder from rfl, if_pos rfl,
    skipPadding, dif_pos (by simp [needPaddingTo128Bits]; omega),
    show readWord (L :: CookiePadder :: CookiePadder :: CookiePadder :: E) (1 + 1)
      = CookiePadder from rfl, if_pos rfl,
    skipPadding, dif_pos (by simp [needPaddingTo128Bits]; omega),
    show readWord (L :: CookiePadder :: CookiePadder :: CookiePadder :: E) (1 + 1 + 1)
      = CookiePadder from rfl, if_pos rfl,
    skipPadding, dif_neg (by simp [needPaddingTo128Bits]; omega)]

/-! ### Chunks -/

theorem chunks128_flatten (x : List Nat) : (chunks128 x).flatten = x := by
  induction x using chunks128.induct with
  | case1 x hx =>
    rw [chunks128, dif_pos hx]
    exact (List.eq_nil_of_length_eq_zero hx).symm
  | case2 x hx ih =>
    rw [chunks128, dif_neg hx]
    simp only [List.flatten_cons]
    rw [ih]
    exact List.take_append_drop 128 x

theorem chunks128_length (x : List Nat) (hmod : x.length % 128 = 0) :
    (chunks128 x).length = x.length / 128 := by
  induction x using chunks128.induct with
  | case1 x hx =>
    rw [chunks128, dif_pos hx, hx]
    simp
  | case2 x hx ih =>
    rw [chunks128, dif_neg hx, List.length_cons,
      ih (by simp only [List.length_drop]; omega)]
    simp only [List.length_drop]
    omega

theorem chunks128_mem_length (x : List Nat) (hmod : x.length % 128 = 0) :
    ∀ m ∈ chunks128 x, m.length = 128 := by
  induction x using chunks128.induct with
  | case1 x hx =>
    rw [chunks128, dif_pos hx]
    simp
  | case2 x hx ih =>
    rw [chunks128, dif_neg hx]
    intro m hm
    rcases List.mem_cons.mp hm with rfl | hm
    · simp only [List.length_take]
      omega
    · exact ih (by simp only [List.length_drop]; omega) m hm

theorem chunks128_mem_mem (x : List Nat) : ∀ m ∈ chunks128 x, ∀ v ∈ m, v ∈ x := by
  induction x using chunks128.induct with
  | case1 x hx =>
    rw [chunks128, dif_pos hx]
    simp
  | case2 x hx ih =>
    rw [chunks128, dif_neg hx]
    intro m hm v hv
    rcases List.mem_cons.mp hm with rfl | hm
    · exact List.take_subset 128 x hv
    · exact List.drop_subset 128 x (ih m hm v hv)

theorem chunks128_append (F T : List Nat) (hF : F.length % 128 = 0) :
    chunks128 (F ++ T) = chunks128 F ++ chunks128 T := by
  induction F using chunks128.induct with
  | case1 F hx =>
    have hF0 : F = [] := List.eq_nil_of_length_eq_zero hx
    subst hF0
    have e : chunks128 ([] : List Nat) = [] := by
      rw [chunks128.eq_def]
      rfl
    rw [e]
    simp
  | case2 F hx ih =>
    have hge : 128 ≤ F.length := by omega
    rw [chunks128.eq_def (F ++ T), dif_neg (by simp only [List.length_append]; omega),
      chunks128.eq_def F, dif_neg hx,
      List.take_append_of_le_length hge, List.drop_append_of_le_length hge]
    simp only [List.cons_append]
    rw [ih (by simp only [List.length_drop]; omega)]

theorem chunks16_mem_length_le (l : List (List Nat)) :
    ∀ c ∈ chunks16 l, c.length ≤ 16 := by
  induction l using chunks16.induct with
  | case1 l hx =>
    rw [chunks16, dif_pos hx]
    simp
  | case2 l hx ih =>
    rw [chunks16, dif_neg hx]
    intro c hc
    rcases List.mem_cons.mp hc with rfl | hc
    · simp only [List.length_take]
      omega
    · exact ih c hc

theorem chunks16_mem_mem (l : List (List Nat)) :
    ∀ c ∈ chunks16 l, ∀ m ∈ c, m ∈ l := by
  induction l using chunks16.induct with
  | case1 l hx =>
    rw [chunks16, dif_pos hx]
    simp
  | case2 l hx ih =>
    rw [chunks16, dif_neg hx]
    intro c hc m hm
    rcases List.mem_cons.mp hc with rfl | hc
    · exact List.take_subset 16 l hm
    · exact List.drop_subset 16 l (ih c hc m hm)

/-! ### Round trip of one block -/

theorem pack_length (m : List Nat) (bits : Nat) :
    (SIMD_fastpackwithoutmask_32 m bits).length = 4 * bits := by
  rw [SIMD_fastpackwithoutmask_32, toLimbs_length]

/-- Unpacking at the encoder's widths recovers the packed miniblocks and advances the
cursor over exactly the payload words. -/
theorem unpackMiniblocks_pack (mbs : List (List Nat)) (pre rest : List Nat)
    (hlen : ∀ m ∈ mbs, m.length = 128) (hval : ∀ m ∈ mbs, ∀ v ∈ m, v < 2 ^ 32) :
    unpackMiniblocks
        (pre ++ ((mbs.map fun m => SIMD_fastpackwithoutmask_32 m (maxbits m)).flatten ++ rest))
        pre.length (mbs.map maxbits)
      = .ok (mbs.flatten, pre.length +
          ((mbs.map fun m => SIMD_fastpackwithoutmask_32 m (maxbits m)).flatten).length) := by
  induction mbs generalizing pre with
  | nil => simp [unpackMiniblocks]
  | cons m mbs ih =>
    simp only [List.map_cons, List.flatten_cons]
    have hmlen : m.length = 128 := hlen m (by simp)
    have hmval : ∀ v ∈ m, v < 2 ^ maxbits m :=
      lt_two_pow_maxbits m (hval m (by simp))
    have hpk : (SIMD_fastpackwithoutmask_32 m (maxbits m)).length = 4 * maxbits m :=
      pack_length m (maxbits m)
    rw [unpackMiniblocks]
    have hdt : ((pre ++ (SIMD_fastpackwithoutmask_32 m (maxbits m) ++
        (mbs.map fun m => SIMD_fastpackwithoutmask_32 m (maxbits m)).flatten ++
          rest)).drop pre.length).take (4 * maxbits m)
        = SIMD_fastpackwithoutmask_32 m (maxbits m) := by
      rw [List.drop_left, List.append_assoc, List.take_left' hpk]
    rw [hdt, unpack_pack m (maxbits m) (maxbits_le_32 m) hmlen hmval]
    have ihr := ih (pre ++ SIMD_fastpackwithoutmask_32 m (maxbits m))
      (fun m' hm' => hlen m' (by simp [hm'])) (fun m' hm' => hval m' (by simp [hm']))
    rw [List.length_append, hpk] at ihr
    rw [show (pre ++ SIMD_fastpackwithoutmask_32 m (maxbits m)) ++
        ((mbs.map fun m => SIMD_fastpackwithoutmask_32 m (maxbits m)).flatten ++ rest)
        = pre ++ (SIMD_fastpackwithoutmask_32 m (maxbits m) ++
          (mbs.map fun m => SIMD_fastpackwithoutmask_32 m (maxbits m)).flatten ++ rest)
      by simp [List.append_assoc]] at ihr
    rw [ihr]
    simp only [List.length_append, hpk]
    rw [Nat.add_assoc]

/-- Reading the four header words at the start of an emitted block recovers the width
array the encoder computed (widths of the block's miniblocks, zero-filled to 16). -/
theorem readHeader4_encodeBlock (mbs : List (List Nat)) (pre rest : List Nat)
    (h16 : mbs.length ≤ 16) :
    readHeader4 (pre ++ (encodeBlock mbs ++ rest)) pre.length
      = mbs.map maxbits ++ List.replicate (16 - mbs.length) 0 := by
  have hlen : (mbs.map maxbits ++ List.replicate (16 - mbs.length) 0).length = 16 := by
    simp only [List.length_append, List.length_map, List.length_replicate]
    omega
  have hlt : ∀ b ∈ mbs.map maxbits ++ List.replicate (16 - mbs.length) 0, b < 256 := by
    intro b hb
    rcases List.mem_append.mp hb with h | h
    · obtain ⟨m, _, rfl⟩ := List.mem_map.mp h
      have := maxbits_le_32 m
      omega
    · have := List.eq_of_mem_replicate h
      omega
  have e : pre ++ (encodeBlock mbs ++ rest)
      = pre ++ (writeHeader (mbs.map maxbits ++ List.replicate (16 - mbs.length) 0) ++
        ((mbs.map fun m => SIMD_fastpackwithoutmask_32 m (maxbits m)).flatten ++ rest)) := by
    rw [encodeBlock]
    simp [List.append_assoc]
  rw [e, readHeader4_writeHeader _ _ _ hlen hlt]

/-- Unpacking an emitted block at the encoder's widths recovers the block's words and
leaves the cursor at the end of the block frame. -/
theorem unpackMiniblocks_encodeBlock (mbs : List (List Nat)) (pre rest : List Nat)
    (hlen : ∀ m ∈ mbs, m.length = 128) (hval : ∀ m ∈ mbs, ∀ v ∈ m, v < 2 ^ 32) :
    unpackMiniblocks (pre ++ (encodeBlock mbs ++ rest)) (pre.length + 4) (mbs.map maxbits)
      = .ok (mbs.flatten, pre.length + (encodeBlock mbs).length) := by
  have e : pre ++ (encodeBlock mbs ++ rest)
      = (pre ++ writeHeader (mbs.map maxbits ++ List.replicate (16 - mbs.length) 0)) ++
        ((mbs.map fun m => SIMD_fastpackwithoutmask_32 m (maxbits m)).flatten ++ rest) := by
    rw [encodeBlock]
    simp [List.append_assoc]
  have hl : (pre ++ writeHeader (mbs.map maxbits ++ List.replicate (16 - mbs.length) 0)).length
      = pre.length + 4 := by
    rw [List.length_append, writeHeader_length]
  rw [e, ← hl, unpackMiniblocks_pack mbs _ rest hlen hval, hl, encodeBlock,
    List.length_append, writeHeader_length, Nat.add_assoc]

theorem chunks128_of_block (x : List Nat) (h : x.length = 2048) :
    (chunks128 x).length = 16 ∧ (∀ m ∈ chunks128 x, m.length = 128) ∧
      (∀ m ∈ chunks128 x, ∀ v ∈ m, v ∈ x) := by
  refine ⟨?_, ?_, chunks128_mem_mem x⟩
  · rw [chunks128_length x (by omega), h]
  · exact chunks128_mem_length x (by omega)

/-- The decoder's full-block loop, run over the frames `encodeBlocks x` emits for an
input whose length is a multiple of the block size, recovers `x` and stops at the end
of the frames. -/
theorem decodeFull_encodeBlocks (x : List Nat) (pre rest : List Nat)
    (hmod : x.length % 2048 = 0) (hval : ∀ v ∈ x, v < 2 ^ 32) :
    decodeFull (pre ++ (encodeBlocks x ++ rest)) pre.length (x.length / 2048)
      = .ok (x, pre.length + (encodeBlocks x).length) := by
  induction x using encodeBlocks.induct generalizing pre with
  | case1 x h ih =>
    have htake : (x.take 2048).length = 2048 := by
      rw [List.length_take]
      omega
    obtain ⟨hc16, hclen, hcmem⟩ := chunks128_of_block (x.take 2048) htake
    rw [encodeBlocks, dif_pos h]
    rw [show x.length / 2048 = (x.length / 2048 - 1) + 1 by omega, decodeFull]
    have eassoc : pre ++ ((encodeBlock (chunks128 (x.take 2048)) ++
        encodeBlocks (x.drop 2048)) ++ rest)
        = pre ++ (encodeBlock (chunks128 (x.take 2048)) ++
          (encodeBlocks (x.drop 2048) ++ rest)) := by
      simp [List.append_assoc]
    rw [eassoc, readHeader4_encodeBlock _ pre _ (by omega), hc16]
    simp only [Nat.sub_self, List.replicate_zero, List.append_nil]
    rw [unpackMiniblocks_encodeBlock _ pre _ hclen
      (fun m hm v hv => hval v (List.take_subset 2048 x (hcmem m hm v hv)))]
    have eassoc2 : pre ++ (encodeBlock (chunks128 (x.take 2048)) ++
        (encodeBlocks (x.drop 2048) ++ rest))
        = (pre ++ encodeBlock (chunks128 (x.take 2048))) ++
          (encodeBlocks (x.drop 2048) ++ rest) := by
      simp [List.append_assoc]
    have ihr := ih (pre ++ encodeBlock (chunks128 (x.take 2048)))
      (by simp only [List.length_drop]; omega)
      (fun v hv => hval v (List.drop_subset 2048 x hv))
    rw [List.length_append] at ihr
    have hcount : (x.drop 2048).length / 2048 = x.length / 2048 - 1 := by
      simp only [List.length_drop]
      omega
    rw [hcount] at ihr
    rw [eassoc2]
    simp only [ihr, chunks128_flatten, List.take_append_drop, List.length_append]
    rw [Nat.add_assoc]
  | case2 x h h0 =>
    have hx : x = [] := List.eq_nil_of_length_eq_zero h0
    subst hx
    rw [encodeBlocks, dif_neg (by simp)]
    simp [decodeFull]
  | case3 x h h0 =>
    omega

theorem encodeBlocks_append (F T : List Nat) (hF : F.length % 2048 = 0) :
    encodeBlocks (F ++ T) = encodeBlocks F ++ encodeBlocks T := by
  induction F using encodeBlocks.induct with
  | case1 F h ih =>
    rw [encodeBlocks.eq_def (F ++ T), dif_pos (by simp only [List.length_append]; omega),
      encodeBlocks.eq_def F, dif_pos h,
      List.take_append_of_le_length (by omega), List.drop_append_of_le_length (by omega),
      ih (by simp only [List.length_drop]; omega)]
    simp [List.append_assoc]
  | case2 F h h0 =>
    have hx : F = [] := List.eq_nil_of_length_eq_zero h0
    subst hx
    rw [encodeBlocks.eq_def ([] : List Nat), dif_neg (by simp)]
    simp
  | case3 F h h0 =>
    omega

theorem encodeBlocks_nil : encodeBlocks [] = [] := by
  rw [encodeBlocks.eq_def]
  rfl

/-- Decoding the trailing block: taking the first `howmany` decoded widths and
unpacking them recovers the trailing words. -/
theorem unpackMiniblocks_trailing (T : List Nat) (pre rest : List Nat)
    (hmod : T.length % 128 = 0) (h0 : T.length ≠ 0) (hlt : T.length < 2048)
    (hval : ∀ v ∈ T, v < 2 ^ 32) :
    unpackMiniblocks (pre ++ (encodeBlocks T ++ rest)) (pre.length + 4)
        ((readHeader4 (pre ++ (encodeBlocks T ++ rest)) pre.length).take (T.length / 128))
      = .ok (T, pre.length + (encodeBlocks T).length) := by
  have henc : encodeBlocks T = encodeBlock (chunks128 T) := by
    rw [encodeBlocks, dif_neg (by omega), if_neg h0]
  have hclen : (chunks128 T).length = T.length / 128 := chunks128_length T hmod
  have hle16 : (chunks128 T).length ≤ 16 := by
    rw [hclen]
    omega
  rw [henc, readHeader4_encodeBlock _ pre rest hle16, ← hclen,
    List.take_left' (List.length_map _ _),
    unpackMiniblocks_encodeBlock _ pre rest (chunks128_mem_length T hmod)
      (fun m hm v hv => hval v (chunks128_mem_mem T m hm v hv)),
    chunks128_flatten]

/-- Master round trip: decoding the stream the encoder wrote from any 16-byte-aligned
buffers recovers the input, reports its length, and consumes the whole stream. -/
theorem decode_encodeStream (x : List Nat) (a b c : Nat)
    (hmod : x.length % 128 = 0) (hval : ∀ v ∈ x, v < 2 ^ 32) (hlen32 : x.length < 2 ^ 32)
    (ha : a % 4 = 0) (hb : b % 4 = 0) (hc : c % 4 = 0) :
    decodeArray (encodeStream x a) b c = .ok (x, x.length, (encodeStream x a).length) := by
  have hWle : x.length / 2048 * 2048 ≤ x.length := by omega
  have hF : (x.take (x.length / 2048 * 2048)).length = x.length / 2048 * 2048 := by
    rw [List.length_take]
    omega
  have hFmod : (x.take (x.length / 2048 * 2048)).length % 2048 = 0 := by
    rw [hF]
    omega
  have henc : encodeBlocks x
      = encodeBlocks (x.take (x.length / 2048 * 2048)) ++
        encodeBlocks (x.drop (x.length / 2048 * 2048)) := by
    conv_lhs => rw [← List.take_append_drop (x.length / 2048 * 2048) x]
    exact encodeBlocks_append _ _ hFmod
  have hsl : encodeStream x a
      = x.length :: CookiePadder :: CookiePadder :: CookiePadder ::
        (encodeBlocks (x.take (x.length / 2048 * 2048)) ++
          encodeBlocks (x.drop (x.length / 2048 * 2048))) := by
    rw [encodeStream, padWords_aligned a ha, Nat.mod_eq_of_lt hlen32, ← henc]
    rfl
  have hdf := decodeFull_encodeBlocks (x.take (x.length / 2048 * 2048))
    [x.length, CookiePadder, CookiePadder, CookiePadder]
    (encodeBlocks (x.drop (x.length / 2048 * 2048))) hFmod
    (fun v hv => hval v (List.take_subset _ x hv))
  simp only [List.cons_append, List.nil_append, List.length_cons, List.length_nil,
    Nat.zero_add, Nat.reduceAdd] at hdf
  rw [hF, show x.length / 2048 * 2048 / 2048 = x.length / 2048 by omega] at hdf
  rw [hsl, decodeArray]
  simp only [readWord, List.getD_cons_zero]
  rw [if_neg (by simp [needPaddingTo128Bits]; omega)]
  rw [skipPadding_cookie x.length _ b hb]
  simp only [hdf]
  by_cases hT : x.length / 2048 * 2048 < x.length
  · rw [if_pos hT]
    have hTmod : (x.drop (x.length / 2048 * 2048)).length % 128 = 0 := by
      simp only [List.length_drop]
      omega
    have hT0 : (x.drop (x.length / 2048 * 2048)).length ≠ 0 := by
      simp only [List.length_drop]
      omega
    have hTlt : (x.drop (x.length / 2048 * 2048)).length < 2048 := by
      simp only [List.length_drop]
      omega
    have htr := unpackMiniblocks_trailing (x.drop (x.length / 2048 * 2048))
      ([x.length, CookiePadder, CookiePadder, CookiePadder] ++
        encodeBlocks (x.take (x.length / 2048 * 2048))) [] hTmod hT0 hTlt
      (fun v hv => hval v (List.drop_subset _ x hv))
    simp only [List.cons_append, List.nil_append, List.append_nil, List.length_append,
      List.length_cons, List.length_nil, Nat.zero_add, Nat.reduceAdd,
      List.length_drop] at htr
    rw [show (encodeBlocks (x.take (x.length / 2048 * 2048))).length + 1 + 1 + 1 + 1
      = 4 + (encodeBlocks (x.take (x.length / 2048 * 2048))).length by omega] at htr
    simp only [htr]
    rw [List.take_append_drop]
    simp only [List.length_append, List.length_cons, List.length_nil, Nat.zero_add,
      Nat.reduceAdd]
    rw [show x.length / 2048 * 2048 + (x.length - x.length / 2048 * 2048) / 128 * 128
      = x.length by omega]
    rw [show (encodeBlocks (x.take (x.length / 2048 * 2048))).length +
          (encodeBlocks (x.drop (x.length / 2048 * 2048))).length + 1 + 1 + 1 + 1
      = 4 + (encodeBlocks (x.take (x.length / 2048 * 2048))).length +
        (encodeBlocks (x.drop (x.length / 2048 * 2048))).length by omega]
  · rw [if_neg hT]
    have hWx : x.length / 2048 * 2048 = x.length := by omega
    have hFx : x.take (x.length / 2048 * 2048) = x := by
      rw [hWx]
      exact List.take_length x
    have hTx : x.drop (x.length / 2048 * 2048) = [] := by
      rw [hWx]
      exact List.drop_length x
    rw [hFx, hTx, encodeBlocks_nil, List.append_nil] at hdf ⊢
    simp only [hWx, List.length_cons, List.length_nil, Nat.zero_add, Nat.reduceAdd,
      List.append_nil]
    rw [show (encodeBlocks x).length + 1 + 1 + 1 + 1 = 4 + (encodeBlocks x).length by omega]

/-! ### Layout facts -/

theorem flatten_pack_length_mod (mbs : List (List Nat)) :
    ((mbs.map fun m => SIMD_fastpackwithoutmask_32 m (maxbits m)).flatten).length % 4 = 0 := by
  induction mbs with
  | nil => rfl
  | cons m t ih =>
    simp only [List.map_cons, List.flatten_cons, List.length_append, pack_length]
    omega

theorem encodeBlock_length_mod (mbs : List (List Nat)) :
    (encodeBlock mbs).length % 4 = 0 := by
  rw [encodeBlock, List.length_append, writeHeader_length]
  have := flatten_pack_length_mod mbs
  omega

theorem mbOffsets_mod (q : Nat) (mbs : List (List Nat)) (hq : q % 4 = 0) :
    ∀ o ∈ mbOffsets q mbs, o % 4 = 0 := by
  induction mbs generalizing q with
  | nil => simp [mbOffsets]
  | cons m t ih =>
    intro o ho
    rw [mbOffsets] at ho
    rcases List.mem_cons.mp ho with rfl | ho
    · exact hq
    · exact ih (q + 4 * maxbits m) (by omega) o ho

theorem blocksOffsets_mod (p : Nat) (x : List Nat) (hp : p % 4 = 0) :
    ∀ o ∈ blocksOffsets p x, o % 4 = 0 := by
  induction p, x using blocksOffsets.induct with
  | case1 p x h ih =>
    rw [blocksOffsets, dif_pos h]
    intro o ho
    rcases List.mem_append.mp ho with ho | ho
    · exact mbOffsets_mod (p + 4) _ (by omega) o ho
    · have hb := encodeBlock_length_mod (chunks128 (x.take 2048))
      exact ih (by omega) o ho
  | case2 p x h h0 =>
    rw [blocksOffsets, dif_neg h, if_pos h0]
    simp
  | case3 p x h h0 =>
    rw [blocksOffsets, dif_neg h, if_neg h0]
    exact mbOffsets_mod (p + 4) _ (by omega)

theorem encodeBlocks_length_pos (x : List Nat) (h : x.length ≠ 0) :
    0 < (encodeBlocks x).length := by
  by_cases h2 : 2048 ≤ x.length
  · rw [encodeBlocks, dif_pos h2]
    simp only [List.length_append, encodeBlock, writeHeader_length]
    omega
  · rw [encodeBlocks, dif_neg h2, if_neg h]
    simp only [List.length_append, encodeBlock, writeHeader_length]
    omega

/-! ### Block structure of the emitted frames -/

theorem chunks16_nil : chunks16 [] = [] := by
  rw [chunks16.eq_def]
  rfl

theorem chunks16_cons_of_sixteen (c rest : List (List Nat)) (hc : c.length = 16) :
    chunks16 (c ++ rest) = c :: chunks16 rest := by
  rw [chunks16.eq_def, dif_neg (by simp only [List.length_append, hc]; omega),
    List.take_append_of_le_length (by omega), List.take_of_length_le (by omega),
    List.drop_append_of_le_length (by omega), List.drop_eq_nil_of_le (by omega),
    List.nil_append]

theorem encodeBlocks_eq_chunks (x : List Nat) (hmod : x.length % 128 = 0) :
    encodeBlocks x = ((chunks16 (chunks128 x)).map encodeBlock).flatten := by
  induction x using encodeBlocks.induct with
  | case1 x h ih =>
    have htake : (x.take 2048).length % 128 = 0 := by
      rw [List.length_take]
      omega
    have hsplit : chunks128 x = chunks128 (x.take 2048) ++ chunks128 (x.drop 2048) := by
      conv_lhs => rw [← List.take_append_drop 2048 x]
      exact chunks128_append _ _ htake
    have hc16 : (chunks128 (x.take 2048)).length = 16 := by
      rw [chunks128_length _ htake, List.length_take]
      omega
    rw [encodeBlocks, dif_pos h, hsplit, chunks16_cons_of_sixteen _ _ hc16]
    simp only [List.map_cons, List.flatten_cons]
    rw [ih (by simp only [List.length_drop]; omega)]
  | case2 x h h0 =>
    have hx : x = [] := List.eq_nil_of_length_eq_zero h0
    subst hx
    rw [encodeBlocks.eq_def]
    rw [show chunks128 ([] : List Nat) = [] from by rw [chunks128.eq_def]; rfl, chunks16_nil]
    rfl
  | case3 x h h0 =>
    have hlen : (chunks128 x).length = x.length / 128 := chunks128_length x hmod
    have hge : 128 ≤ x.length := by omega
    have h16 : (chunks128 x).length ≤ 16 := by omega
    have hne : (chunks128 x).length ≠ 0 := by omega
    rw [encodeBlocks, dif_neg h, if_neg h0, chunks16.eq_def, dif_neg hne,
      List.take_of_length_le h16, List.drop_eq_nil_of_le h16, chunks16_nil]
    simp

/-! ### The length-prefix truncation and the decode of the truncated stream -/

theorem length_cons4 (L : Nat) (E : List Nat) :
    (L :: CookiePadder :: CookiePadder :: CookiePadder :: E).length = 4 + E.length := by
  simp only [List.length_cons]
  omega

theorem encodeStream_big :
    encodeStream (List.replicate (2 ^ 32) 0) 0
      = 0 :: CookiePadder :: CookiePadder :: CookiePadder ::
        encodeBlocks (List.replicate (2 ^ 32) 0) := by
  rw [encodeStream, padWords_aligned 0 rfl, List.length_replicate, Nat.mod_self]
  rfl

/-- The stream written for `2 ^ 32` zero words carries a truncated length prefix of `0`,
so the decoder stops after the padding: no words out, `nvalue = 0`, cursor at 4. -/
theorem decode_big_input :
    decodeArray (encodeStream (List.replicate (2 ^ 32) 0) 0) 0 0 = .ok ([], 0, 4) := by
  have hsp := skipPadding_cookie 0 (encodeBlocks (List.replicate (2 ^ 32) 0)) 0 rfl
  rw [encodeStream_big]
  generalize encodeBlocks (List.replicate (2 ^ 32) 0) = E at hsp ⊢
  simp only [decodeArray, readWord, List.getD_cons_zero]
  rw [if_neg (by decide), hsp]
  simp only [Nat.zero_div, Nat.zero_mul, decodeFull]
  rfl

/-! ## Claims -/

theorem checkifdivisibleby_length (x : List Nat) (hmod : x.length % 128 = 0)
    (hpos : x.length ≠ 0) : checkifdivisibleby x.length 128 = true := by
  simp only [checkifdivisibleby, Bool.and_eq_true, bne_iff_ne, ne_eq, beq_iff_eq]
  omega

/-- C1 (amended): for every input `x` whose length `L` is a positive multiple of 128
with `L < 2 ^ 32`, values below `2 ^ 32`, and 16-byte-aligned buffers, `decodeArray`
on the stream `encodeArray` produced writes back exactly `x` and reports
`nvalue = L`.  (The bound `L < 2 ^ 32` is forced by the `uint32` cast on the length
prefix, see `C1_round_trip_cex`.) -/
theorem C1_round_trip (x : List Nat) (hmod : x.length % 128 = 0) (hpos : x.length ≠ 0)
    (hval : ∀ v ∈ x, v < 2 ^ 32) (hlen32 : x.length < 2 ^ 32) :
    encodeArray x 0 = .ok (encodeStream x 0, (encodeStream x 0).length) ∧
      ∃ p, decodeArray (encodeStream x 0) 0 0 = .ok (x, x.length, p) := by
  refine ⟨?_, (encodeStream x 0).length,
    decode_encodeStream x 0 0 0 hmod hval hlen32 rfl rfl rfl⟩
  rw [encodeArray, if_pos (checkifdivisibleby_length x hmod hpos)]

theorem C1_round_trip_witness :
    encodeArray (List.replicate 128 1) 0 = .ok (encodeStream (List.replicate 128 1) 0,
        (encodeStream (List.replicate 128 1) 0).length) ∧
      ∃ p, decodeArray (encodeStream (List.replicate 128 1) 0) 0 0
        = .ok (List.replicate 128 1, (List.replicate 128 1).length, p) :=
  C1_round_trip (List.replicate 128 1) (by rw [List.length_replicate])
    (by rw [List.length_replicate]; omega)
    (fun v hv => by rw [List.eq_of_mem_replicate hv]; norm_num)
    (by rw [List.length_replicate]; norm_num)

/-- C1 counterexample: the input of `2 ^ 32` zeros has a length that is a positive
multiple of 128 and values in range, yet the decoder does not write back the input:
the length prefix is written through `static_cast<uint32_t>` and wraps to 0, so the
decoder outputs nothing. -/
theorem C1_round_trip_cex :
    (List.replicate (2 ^ 32) (0 : Nat)).length % 128 = 0 ∧
    (List.replicate (2 ^ 32) (0 : Nat)).length ≠ 0 ∧
    (∀ v ∈ List.replicate (2 ^ 32) (0 : Nat), v < 2 ^ 32) ∧
    ¬ ∃ p, decodeArray (encodeStream (List.replicate (2 ^ 32) 0) 0) 0 0
      = .ok (List.replicate (2 ^ 32) 0, (List.replicate (2 ^ 32) (0 : Nat)).length, p) := by
  refine ⟨by rw [List.length_replicate]; norm_num, by rw [List.length_replicate]; norm_num,
    fun v hv => by rw [List.eq_of_mem_replicate hv]; norm_num, ?_⟩
  rintro ⟨p, hp⟩
  rw [decode_big_input] at hp
  injection hp with h
  have hl : ([] : List Nat).length = (List.replicate (2 ^ 32) (0 : Nat)).length :=
    congrArg (fun t : List Nat × Nat × Nat => t.1.length) h
  rw [List.length_replicate] at hl
  norm_num at hl

/-- C2: for every input whose length is zero or not a multiple of 128, `encodeArray`
fails with `InvalidLength`; the error result carries no output words (nothing is
written to the output buffer). -/
theorem C2_invalid_length (x : List Nat) (a : Nat)
    (h : x.length = 0 ∨ x.length % 128 ≠ 0) :
    encodeArray x a = .error .InvalidLength := by
  rw [encodeArray, if_neg (by
    simp only [checkifdivisibleby, Bool.and_eq_true, bne_iff_ne, ne_eq, beq_iff_eq]
    omega)]

theorem C2_invalid_length_witness : encodeArray [1] 0 = .error .InvalidLength :=
  C2_invalid_length [1] 0 (Or.inr (by decide))

/-- C3 counterexample: a stream whose trailing header carries the width 33 in a slot
past the partial block's miniblock count decodes successfully — the decoder never
examines widths of unused trailing slots, so it does not reject every stream with a
decoded width above 32. -/
theorem C3_width_rejection_cex :
    33 ∈ readHeader4 [128, CookiePadder, CookiePadder, CookiePadder, 2162688, 0, 0, 0] 4 ∧
    decodeArray [128, CookiePadder, CookiePadder, CookiePadder, 2162688, 0, 0, 0] 0 0
      = .ok (List.replicate 128 0, 128, 8) := by
  constructor
  · decide
  · have hsp := skipPadding_cookie 128 [2162688, 0, 0, 0] 0 rfl
    simp only [decodeArray, readWord, List.getD_cons_zero]
    rw [if_neg (by decide), hsp]
    rfl

/-- C3 (amended): a width above 32 that the decoder actually uses — one of the widths
handed to the miniblock-unpacking loop — makes the call fail with `StreamCorrupt`
(raised from the unpack kernel invoked at that width); widths decoded into unused
trailing-header slots are ignored without any check. -/
theorem C3_width_rejection_amended (s : List Nat) (p : Nat) (Bs : List Nat)
    (h : ∃ b ∈ Bs, 32 < b) :
    unpackMiniblocks s p Bs = .error .StreamCorrupt := by
  induction Bs generalizing p with
  | nil => simp at h
  | cons b Bs ih =>
    rw [unpackMiniblocks]
    by_cases hb : b ≤ 32
    · rw [SIMD_fastunpack_32, if_pos hb]
      obtain ⟨b', hb', hgt⟩ := h
      rcases List.mem_cons.mp hb' with rfl | hmem
      · omega
      · rw [ih (p + 4 * b) ⟨b', hmem, hgt⟩]
    · rw [SIMD_fastunpack_32, if_neg hb]

theorem C3_width_rejection_witness :
    unpackMiniblocks [] 0 [33] = .error .StreamCorrupt :=
  C3_width_rejection_amended [] 0 [33] ⟨33, by decide, by decide⟩

/-- C4: for every valid input, the emitted frames are exactly one block frame per group
of up to sixteen miniblocks, and the width recorded in each block's header for
miniblock `i` equals `⌈log2(max(miniblock_i)+1)⌉` — 0 for an all-zero miniblock, else
`⌊log2 max⌋ + 1` — with no overshoot. -/
theorem C4_width_minimality (x : List Nat) (hmod : x.length % 128 = 0)
    (hval : ∀ v ∈ x, v < 2 ^ 32) :
    encodeBlocks x = ((chunks16 (chunks128 x)).map encodeBlock).flatten ∧
      ∀ mbs ∈ chunks16 (chunks128 x), ∀ i < mbs.length,
        (readHeader4 (encodeBlock mbs) 0).getD i 0
          = Nat.clog 2 ((mbs.getD i []).foldr max 0 + 1) := by
  refine ⟨encodeBlocks_eq_chunks x hmod, ?_⟩
  intro mbs hmbs i hi
  have h16 : mbs.length ≤ 16 := chunks16_mem_length_le _ mbs hmbs
  have hrd : readHeader4 (encodeBlock mbs) 0
      = mbs.map maxbits ++ List.replicate (16 - mbs.length) 0 := by
    have h := readHeader4_encodeBlock mbs [] [] h16
    simpa using h
  rw [hrd, getD_append_lt _ _ i 0 (by simp only [List.length_map]; omega),
    getD_map_maxbits mbs i hi]
  rcases getD_mem_or mbs i [] with hm | hm
  · exact maxbits_eq_clog _ (fun v hv =>
      hval v (chunks128_mem_mem x _ (chunks16_mem_mem _ mbs hmbs _ hm) v hv))
  · rw [hm]
    rw [show maxbits [] = 0 from bitWidthAux_zero 32]
    rw [show ([] : List Nat).foldr max 0 = 0 from rfl, Nat.clog_one_right]

theorem C4_width_minimality_witness :
    encodeBlocks (List.replicate 128 3)
        = ((chunks16 (chunks128 (List.replicate 128 3))).map encodeBlock).flatten ∧
      ∀ mbs ∈ chunks16 (chunks128 (List.replicate 128 3)), ∀ i < mbs.length,
        (readHeader4 (encodeBlock mbs) 0).getD i 0
          = Nat.clog 2 ((mbs.getD i []).foldr max 0 + 1) :=
  C4_width_minimality (List.replicate 128 3) (by rw [List.length_replicate])
    (fun v hv => by rw [List.eq_of_mem_replicate hv]; norm_num)

/-- C5: the encoder writes header word `k` as
`(B[4k]<<24) | (B[4k+1]<<16) | (B[4k+2]<<8) | B[4k+3]` (`writeHeader`/`headerWord`),
the decoder recovers `(w>>24)&0xFF, (w>>16)&0xFF, (w>>8)&0xFF, w&0xFF` in that order
(`readHeaderWord`), and for all sixteen widths in `[0,32]` decoding the four written
header words yields exactly the widths the encoder computed. -/
theorem C5_header_inversion (Bs : List Nat) (h16 : Bs.length = 16)
    (hb : ∀ b ∈ Bs, b ≤ 32) :
    readHeader4 (writeHeader Bs) 0 = Bs := by
  have h := readHeader4_writeHeader [] Bs [] h16
    (fun b hbm => lt_of_le_of_lt (hb b hbm) (by norm_num))
  simpa using h

theorem C5_header_inversion_witness :
    readHeader4 (writeHeader [0, 1, 2, 3, 4, 5, 6, 7, 8, 9, 10, 11, 12, 13, 14, 32]) 0
      = [0, 1, 2, 3, 4, 5, 6, 7, 8, 9, 10, 11, 12, 13, 14, 32] :=
  C5_header_inversion _ (by decide) (by decide)

/-- C6: mutating any padding word (positions 1..3 when the output buffer was exactly
16-byte aligned) of a valid encoded stream to a value other than
`CookiePadder = 123456` makes `decodeArray` fail with `StreamCorrupt`: every word read
while the input cursor is unaligned must equal the sentinel. -/
theorem C6_padding_sentinel (x : List Nat) (a j w : Nat) (hmod : x.length % 128 = 0)
    (hpos : x.length ≠ 0) (ha : a % 4 = 0) (hj : 1 ≤ j ∧ j ≤ 3) (hw : w ≠ CookiePadder) :
    decodeArray ((encodeStream x a).set j w) 0 0 = .error .StreamCorrupt := by
  have hsl : encodeStream x a = x.length % 2 ^ 32 :: CookiePadder :: CookiePadder ::
      CookiePadder :: encodeBlocks x := by
    rw [encodeStream, padWords_aligned a ha]
    rfl
  rw [hsl]
  obtain ⟨hj1, hj3⟩ := hj
  interval_cases j
  · rw [show (x.length % 2 ^ 32 :: CookiePadder :: CookiePadder :: CookiePadder ::
        encodeBlocks x).set 1 w = x.length % 2 ^ 32 :: w :: CookiePadder ::
        CookiePadder :: encodeBlocks x from rfl]
    simp only [decodeArray, readWord, List.getD_cons_zero]
    rw [if_neg (by decide), skipPadding, dif_pos (by decide),
      show readWord (x.length % 2 ^ 32 :: w :: CookiePadder :: CookiePadder ::
        encodeBlocks x) 1 = w from rfl, if_neg hw]
  · rw [show (x.length % 2 ^ 32 :: CookiePadder :: CookiePadder :: CookiePadder ::
        encodeBlocks x).set 2 w = x.length % 2 ^ 32 :: CookiePadder :: w ::
        CookiePadder :: encodeBlocks x from rfl]
    simp only [decodeArray, readWord, List.getD_cons_zero]
    rw [if_neg (by decide), skipPadding, dif_pos (by decide),
      show readWord (x.length % 2 ^ 32 :: CookiePadder :: w :: CookiePadder ::
        encodeBlocks x) 1 = CookiePadder from rfl, if_pos rfl,
      skipPadding, dif_pos (by decide),
      show readWord (x.length % 2 ^ 32 :: CookiePadder :: w :: CookiePadder ::
        encodeBlocks x) (1 + 1) = w from rfl, if_neg hw]
  · rw [show (x.length % 2 ^ 32 :: CookiePadder :: CookiePadder :: CookiePadder ::
        encodeBlocks x).set 3 w = x.length % 2 ^ 32 :: CookiePadder :: CookiePadder ::
        w :: encodeBlocks x from rfl]
    simp only [decodeArray, readWord, List.getD_cons_zero]
    rw [if_neg (by decide), skipPadding, dif_pos (by decide),
      show readWord (x.length % 2 ^ 32 :: CookiePadder :: CookiePadder :: w ::
        encodeBlocks x) 1 = CookiePadder from rfl, if_pos rfl,
      skipPadding, dif_pos (by decide),
      show readWord (x.length % 2 ^ 32 :: CookiePadder :: CookiePadder :: w ::
        encodeBlocks x) (1 + 1) = CookiePadder from rfl, if_pos rfl,
      skipPadding, dif_pos (by decide),
      show readWord (x.length % 2 ^ 32 :: CookiePadder :: CookiePadder :: w ::
        encodeBlocks x) (1 + 1 + 1) = w from rfl, if_neg hw]

theorem C6_padding_sentinel_witness :
    decodeArray ((encodeStream (List.replicate 128 0) 0).set 2 7) 0 0
      = .error .StreamCorrupt :=
  C6_padding_sentinel (List.replicate 128 0) 0 2 7 (by rw [List.length_replicate])
    (by rw [List.length_replicate]; omega) rfl ⟨by omega, by omega⟩ (by decide)

/-- C7 (amended): for every valid input of length `L < 2 ^ 32`, the first word of the
stream `encodeArray` produces equals `L`, independent of the compressed size, of the
input values, and of the (word-aligned) output address.  (The bound is forced by the
`uint32` cast at simdbinarypacking.h:46, see `C7_length_cex`.) -/
theorem C7_length_first_word (x : List Nat) (a : Nat) (hmod : x.length % 128 = 0)
    (hpos : x.length ≠ 0) (hlen32 : x.length < 2 ^ 32) :
    readWord (encodeStream x a) 0 = x.length := by
  rw [encodeStream, readWord, List.getD_cons_zero, Nat.mod_eq_of_lt hlen32]

theorem C7_length_first_word_witness :
    readWord (encodeStream (List.replicate 128 9) 0) 0 = (List.replicate 128 9).length :=
  C7_length_first_word (List.replicate 128 9) 0 (by rw [List.length_replicate])
    (by rw [List.length_replicate]; omega) (by rw [List.length_replicate]; norm_num)

/-- C7 counterexample: for the valid input of `2 ^ 32` zeros the first stream word is
`2 ^ 32 % 2 ^ 32 = 0`, not the original length. -/
theorem C7_length_cex :
    (List.replicate (2 ^ 32) (0 : Nat)).length % 128 = 0 ∧
    (List.replicate (2 ^ 32) (0 : Nat)).length ≠ 0 ∧
    readWord (encodeStream (List.replicate (2 ^ 32) 0) 0) 0
      ≠ (List.replicate (2 ^ 32) (0 : Nat)).length := by
  refine ⟨by rw [List.length_replicate]; norm_num, by rw [List.length_replicate]; norm_num, ?_⟩
  rw [encodeStream_big]
  simp only [readWord, List.getD_cons_zero, List.length_replicate]
  norm_num

/-- C8: in every stream produced by `encodeArray` for a valid input from a
16-byte-aligned output buffer, the word offset from the stream base of each block's
payload — and of every miniblock's payload region, since each occupies `4·B[i]`
words — is a multiple of 4 words. -/
theorem C8_payload_alignment (x : List Nat) (a : Nat) (hmod : x.length % 128 = 0)
    (hpos : x.length ≠ 0) (hval : ∀ v ∈ x, v < 2 ^ 32) (ha : a % 4 = 0) :
    ∀ o ∈ payloadOffsets x a, o % 4 = 0 := by
  rw [payloadOffsets, padWords_aligned a ha]
  exact blocksOffsets_mod _ x (by decide)

theorem chunks128_replicate128 :
    chunks128 (List.replicate 128 1) = [List.replicate 128 1] := by
  rw [chunks128, dif_neg (by rw [List.length_replicate]; omega),
    List.take_of_length_le (by rw [List.length_replicate]),
    List.drop_eq_nil_of_le (by rw [List.length_replicate]),
    show chunks128 ([] : List Nat) = [] from by rw [chunks128.eq_def]; rfl]

theorem payloadOffsets_replicate128 : payloadOffsets (List.replicate 128 1) 0 = [8] := by
  rw [payloadOffsets, padWords_aligned 0 rfl,
    show (1 + ([CookiePadder, CookiePadder, CookiePadder] : List Nat).length) = 4 from rfl,
    blocksOffsets, dif_neg (by rw [List.length_replicate]; omega),
    if_neg (by rw [List.length_replicate]; omega), chunks128_replicate128,
    mbOffsets, mbOffsets]

theorem C8_payload_alignment_witness :
    payloadOffsets (List.replicate 128 1) 0 = [8] ∧ (8 : Nat) % 4 = 0 :=
  ⟨payloadOffsets_replicate128,
    C8_payload_alignment (List.replicate 128 1) 0 (by rw [List.length_replicate])
      (by rw [List.length_replicate]; omega)
      (fun v hv => by rw [List.eq_of_mem_replicate hv]; norm_num) rfl 8
      (by rw [payloadOffsets_replicate128]; exact List.mem_singleton.mpr rfl)⟩

/-- C9 (amended): for every valid input `x` (length a positive multiple of 128 below
`2 ^ 32`, aligned buffers), the input cursor `decodeArray` returns on the stream
`encodeArray` produced equals the stream base plus the `nvalue` word count the
encoder reported: the decoder consumes exactly the words the encoder produced.
(The bound `L < 2 ^ 32` is forced by the length-prefix cast, see
`C9_consumption_cex`.) -/
theorem C9_stream_consumption (x s : List Nat) (nv : Nat) (hmod : x.length % 128 = 0)
    (hpos : x.length ≠ 0) (hval : ∀ v ∈ x, v < 2 ^ 32) (hlen32 : x.length < 2 ^ 32)
    (henc : encodeArray x 0 = .ok (s, nv)) :
    decodeArray s 0 0 = .ok (x, x.length, nv) := by
  rw [encodeArray, if_pos (checkifdivisibleby_length x hmod hpos)] at henc
  injection henc with h
  injection h with hs hnv
  subst hs
  subst hnv
  exact decode_encodeStream x 0 0 0 hmod hval hlen32 rfl rfl rfl

theorem C9_stream_consumption_witness :
    decodeArray (encodeStream (List.replicate 128 1) 0) 0 0
      = .ok (List.replicate 128 1, (List.replicate 128 1).length,
          (encodeStream (List.replicate 128 1) 0).length) :=
  C9_stream_consumption (List.replicate 128 1) _ _ (by rw [List.length_replicate])
    (by rw [List.length_replicate]; omega)
    (fun v hv => by rw [List.eq_of_mem_replicate hv]; norm_num)
    (by rw [List.length_replicate]; norm_num)
    (by rw [encodeArray, if_pos (checkifdivisibleby_length _
      (by rw [List.length_replicate]) (by rw [List.length_replicate]; omega))])

/-- C9 counterexample: for the valid input of `2 ^ 32` zeros the encoder reports the
full stream length as `nvalue`, but the decoder — misled by the truncated length
prefix — stops after the padding with its cursor at word 4, short of the stream
end. -/
theorem C9_consumption_cex :
    encodeArray (List.replicate (2 ^ 32) 0) 0
      = .ok (encodeStream (List.replicate (2 ^ 32) 0) 0,
          (encodeStream (List.replicate (2 ^ 32) 0) 0).length) ∧
    ¬ ∃ out n, decodeArray (encodeStream (List.replicate (2 ^ 32) 0) 0) 0 0
      = .ok (out, n, (encodeStream (List.replicate (2 ^ 32) 0) 0).length) := by
  constructor
  · rw [encodeArray, if_pos (checkifdivisibleby_length _
      (by rw [List.length_replicate]; norm_num) (by rw [List.length_replicate]; norm_num))]
  · rintro ⟨out, n, h⟩
    rw [decode_big_input] at h
    injection h with h
    have h3 : (4 : Nat) = (encodeStream (List.replicate (2 ^ 32) 0) 0).length :=
      congrArg (fun t : List Nat × Nat × Nat => t.2.2) h
    have hlen : (encodeStream (List.replicate (2 ^ 32) 0) 0).length
        = 4 + (encodeBlocks (List.replicate (2 ^ 32) 0)).length := by
      rw [encodeStream_big]
      exact length_cons4 0 _
    have hbp := encodeBlocks_length_pos (List.replicate (2 ^ 32) 0)
      (by rw [List.length_replicate]; norm_num)
    omega

/-- C10: for every valid input, when the output buffer is exactly 16-byte aligned
(`outAddr % 4 = 0`), `encodeArray` writes exactly three `CookiePadder` words at word
positions 1, 2, 3 and the first block header begins at word offset 4; in general the
padding loop emits at most three words. -/
theorem C10_padding_words (x : List Nat) (a : Nat) (hmod : x.length % 128 = 0)
    (hpos : x.length ≠ 0) (ha : a % 4 = 0) :
    encodeArray x a = .ok (x.length % 2 ^ 32 :: CookiePadder :: CookiePadder ::
        CookiePadder :: encodeBlocks x, 4 + (encodeBlocks x).length) ∧
      ∀ b : Nat, (padWords b).length ≤ 3 := by
  refine ⟨?_, fun b => padWords_length_le b⟩
  rw [encodeArray, if_pos (checkifdivisibleby_length x hmod hpos)]
  have hsl : encodeStream x a = x.length % 2 ^ 32 :: CookiePadder :: CookiePadder ::
      CookiePadder :: encodeBlocks x := by
    rw [encodeStream, padWords_aligned a ha]
    rfl
  rw [hsl, show (x.length % 2 ^ 32 :: CookiePadder :: CookiePadder :: CookiePadder ::
      encodeBlocks x).length = 4 + (encodeBlocks x).length by
    simp only [List.length_cons]; omega]

theorem C10_padding_words_witness :
    encodeArray (List.replicate 128 0) 0 = .ok ((List.replicate 128 0).length % 2 ^ 32 ::
        CookiePadder :: CookiePadder :: CookiePadder ::
        encodeBlocks (List.replicate 128 0),
        4 + (encodeBlocks (List.replicate 128 0)).length) ∧
      ∀ b : Nat, (padWords b).length ≤ 3 :=
  C10_padding_words (List.replicate 128 0) 0 (by rw [List.length_replicate])
    (by rw [List.length_replicate]; omega) rfl

end FastPForLib
